import Mathlib

/-!
Verification of the Rustle search-engine core (`src/search.rs`, `src/utils.rs`).

Strings are modelled as lists of Unicode code points (`List Nat`); filesystem
paths as lists of path components (`List (List Nat)`).  The third-party fuzzy
matcher (`SkimMatcherV2`) is modelled by its contract: it succeeds exactly when
the normalized query is an ordered subsequence of the normalized name, and the
numeric base score it returns is kept abstract (a function parameter `base`).
Rust's `sort_unstable_by` is modelled by an abstract sort parameter constrained
to its contract (output sorted by descending score and a permutation of the
input).  The Unicode case/NFD tables are restricted to ASCII plus the Latin
letter e-acute; other code points are left unchanged.
-/

namespace Rustle

/-- Converts a Lean string literal to the code-point list used by the model. -/
def s2l (s : String) : List Nat := s.data.map Char.toNat

/-- Modelled after the simple lowercase mapping used by Rust's
`str::to_lowercase`, restricted to ASCII letters and U+00C9 (E-acute);
other code points are unchanged. -/
def toLowerCP (c : Nat) : Nat :=
  if 65 ≤ c ∧ c ≤ 90 then c + 32
  else if c = 201 then 233
  else c

/-- Modelled from the spec: the `toUpper` transformation quantified over in the
case-insensitivity property (the repository itself never calls
`to_uppercase`).  Simple uppercase mapping on the covered alphabet. -/
def toUpperCP (c : Nat) : Nat :=
  if 97 ≤ c ∧ c ≤ 122 then c - 32
  else if c = 233 then 201
  else c

/-- Rust `str::to_lowercase` lifted to strings. -/
def toLowerStr (s : List Nat) : List Nat := s.map toLowerCP

/-- Spec `toUpper` lifted to strings. -/
def toUpperStr (s : List Nat) : List Nat := s.map toUpperCP

/-- Modelled after Unicode NFD (the `unicode_normalization` crate) on the
covered alphabet: e-acute decomposes to `e` followed by the combining acute
accent U+0301; everything else is its own decomposition. -/
def nfdCP (c : Nat) : List Nat :=
  if c = 233 then [101, 769]
  else if c = 201 then [69, 769]
  else [c]

/-- Modelled after Rust `char::is_alphanumeric` on the covered alphabet
(ASCII digits and letters, plus E-acute in both cases; the combining accent
U+0769 is a mark, hence not alphanumeric). -/
def isAlnumCP (c : Nat) : Bool :=
  decide ((48 ≤ c ∧ c ≤ 57) ∨ (65 ≤ c ∧ c ≤ 90) ∨ (97 ≤ c ∧ c ≤ 122) ∨
    c = 233 ∨ c = 201)

/-- Modelled after Rust `char::is_whitespace` on the covered alphabet. -/
def isWsCP (c : Nat) : Bool :=
  decide (c = 32 ∨ c = 9 ∨ c = 10 ∨ c = 13 ∨ c = 11 ∨ c = 12 ∨ c = 133 ∨ c = 160)

/-- utils.rs `normalize_for_search`: lowercase, NFD decomposition, then keep
only alphanumeric and whitespace code points. -/
def normalize_for_search (s : List Nat) : List Nat :=
  ((toLowerStr s).flatMap nfdCP).filter (fun c => isAlnumCP c || isWsCP c)

/-- UTF-8 encoded length in bytes of one code point (Rust `str::len` counts
bytes). -/
def utf8CharLen (c : Nat) : Nat :=
  if c < 128 then 1 else if c < 2048 then 2 else if c < 65536 then 3 else 4

/-- Rust `str::len`: number of UTF-8 bytes of the string. -/
def utf8Len (s : List Nat) : Nat := (s.map utf8CharLen).sum

/-- Helper for `splitWs` accumulating the current word (reversed). -/
def splitWsAux : List Nat → List Nat → List (List Nat)
  | cur, [] => if cur = [] then [] else [cur.reverse]
  | cur, c :: cs =>
    if isWsCP c then
      if cur = [] then splitWsAux [] cs else cur.reverse :: splitWsAux [] cs
    else splitWsAux (c :: cur) cs

/-- Rust `str::split_whitespace`: splits at whitespace, dropping empty words. -/
def splitWs (s : List Nat) : List (List Nat) := splitWsAux [] s

/-- Greedy ordered-subsequence test: `subseq p t` holds when the elements of
`p` occur in `t` in order (not necessarily contiguously). -/
def subseq : List Nat → List Nat → Bool
  | [], _ => true
  | _ :: _, [] => false
  | a :: as, b :: bs => if a = b then subseq as bs else subseq (a :: as) bs

/-- Modelled contract of `SkimMatcherV2::fuzzy_match` (third-party crate, both
arguments already lowercase here): succeeds exactly when the pattern is an
ordered subsequence of the choice, returning a base score abstracted as the
function `base`. -/
def fuzzy_match (base : List Nat → List Nat → Int) (choice pattern : List Nat) :
    Option Int :=
  if subseq pattern choice then some (base choice pattern) else none

/-- search.rs `SearchEngine::calculate_score`: base fuzzy score on the
search-normalized strings plus additive bonuses computed on the raw lowercase
strings. -/
def calculate_score (base : List Nat → List Nat → Int)
    (name normalized_query query_lower : List Nat) : Option Int :=
  let normalized_name := normalize_for_search name
  let name_lower := toLowerStr name
  match fuzzy_match base normalized_name normalized_query with
  | none => none
  | some base_score =>
    let score := base_score
    let score := if name_lower = query_lower then score + 1000 else score
    let score := if query_lower.isPrefixOf name_lower then score + 500 else score
    let score :=
      if (splitWs name_lower).any (fun w => query_lower.isPrefixOf w) then
        score + 200
      else score
    let score :=
      if utf8Len name < 20 then score + (20 - (utf8Len name : Int)) * 5
      else score
    let score := if 50 < utf8Len name then score - 50 else score
    some score

/-- Scoring as invoked by `SearchEngine::search`: the second and third
arguments of `calculate_score` are derived from the raw query. -/
def score (base : List Nat → List Nat → Int) (name query : List Nat) :
    Option Int :=
  calculate_score base name (normalize_for_search query) (toLowerStr query)

/-! ## Data model (search.rs) -/

/-- search.rs `ResultType`. -/
inductive ResultType where
  | Application
  | File
  | Folder
deriving DecidableEq, Repr

/-- search.rs `SearchResult`.  Paths are lists of components. -/
structure SearchResult where
  name : List Nat
  path : List (List Nat)
  result_type : ResultType
  score : Int
  description : List Nat
deriving DecidableEq, Repr

/-- search.rs `GroupedResults`. -/
structure GroupedResults where
  applications : List SearchResult
  folders : List SearchResult
  files : List SearchResult
deriving DecidableEq, Repr

/-- The engine state used by `search`: the cached application catalog and the
two search-path lists (configured and discovered at startup). -/
structure SearchEngine where
  applications : List SearchResult
  search_paths : List (List (List Nat))
  extra_search_paths : List (List (List Nat))

/-! ## Paths and path strings -/

/-- Renders a component path the way `Path::to_string_lossy` renders paths
built by the walker: components joined with a backslash (code point 92). -/
def pathString : List (List Nat) → List Nat
  | [] => []
  | [c] => c
  | c :: cs => c ++ 92 :: pathString cs

/-- Case-normalized path string: `path.to_string_lossy().to_lowercase()`,
the deduplication identity used throughout `search`. -/
def pathKeyOf (p : List (List Nat)) : List Nat := toLowerStr (pathString p)

/-- Deduplication key of one search result. -/
def pathKey (r : SearchResult) : List Nat := pathKeyOf r.path

/-- utils.rs `file_extension` on a file name: the lowercased extension after
the last dot, provided the dot is not the first character (Rust
`Path::extension` semantics); empty when there is none. -/
def file_extension (name : List Nat) : List Nat :=
  let rec go : List Nat → Option (List Nat)
    | [] => none
    | c :: cs =>
      match go cs with
      | some ext => some ext
      | none => if c = 46 then some cs else none
  match name with
  | [] => []
  | _ :: rest =>
    match go rest with
    | some ext => toLowerStr ext
    | none => []

/-- utils.rs `is_shortcut` on a path: last component has extension `lnk`. -/
def is_shortcut (p : List (List Nat)) : Bool :=
  file_extension (p.getLastD []) = s2l "lnk"

/-- Rust `str::strip_suffix`: removes the given suffix when present. -/
def stripSuffix (name suf : List Nat) : Option (List Nat) :=
  if suf.isSuffixOf name then some (name.take (name.length - suf.length))
  else none

/-- utils.rs `display_name`: the last path component, with the `.lnk` or
`.LNK` suffix removed when the path is a shortcut. -/
def display_name (p : List (List Nat)) : List Nat :=
  let name := p.getLastD []
  if is_shortcut p then
    match stripSuffix name (s2l ".lnk") with
    | some n => n
    | none =>
      match stripSuffix name (s2l ".LNK") with
      | some n => n
      | none => name
  else name

/-! ## Filesystem model and the walker -/

/-- A filesystem node: a file or a directory with ordered children. -/
inductive FSNode where
  | file (name : List Nat)
  | dir (name : List Nat) (children : List FSNode)

/-- Name of a node. -/
def fsName : FSNode → List Nat
  | .file n => n
  | .dir n _ => n

/-- Directory test of a node (`Path::is_dir`). -/
def fsIsDir : FSNode → Bool
  | .file _ => false
  | .dir _ _ => true

/-- Children of a node (empty for files). -/
def fsChildren : FSNode → List FSNode
  | .file _ => []
  | .dir _ cs => cs

/-- walkdir `WalkDir::new(p).max_depth(d)` composed with
`filter_entry(pred)`: depth-first pre-order listing of `(path, node)` pairs.
`p` is the full path of `n` itself; the root counts as depth 0.  An entry
failing `pred` is not yielded, and when it is a directory the whole subtree
is skipped (pruning before descent). -/
def walkNode (pred : List Nat → Bool) : Nat → List (List Nat) → FSNode →
    List (List (List Nat) × FSNode)
  | d, p, n =>
    if pred (fsName n) then
      (p, n) ::
        (match d with
         | 0 => []
         | Nat.succ d2 =>
           if fsIsDir n then
             (fsChildren n).flatMap (fun c => walkNode pred d2 (p ++ [fsName c]) c)
           else [])
    else []

/-- search.rs `search_files_and_folders`: the `filter_entry` predicate — skip
dot- and dollar-prefixed names and a fixed case-insensitive denylist of
system/build directory names. -/
def denyNames : List (List Nat) :=
  ["node_modules", ".git", "target", "__pycache__", ".cache", "appdata",
   "cache", "temp", "tmp", "$recycle.bin", "system volume information",
   "windows", "programdata", "recovery", "boot", "perflogs", "msocache",
   "config.msi", "intel", "amd", "nvidia", ".vs", ".idea", ".vscode", "bin",
   "obj", "debug", "release", "packages", ".nuget", "wpsystem", "windowsapps",
   "xboxgames"].map s2l

/-- Entry filter of the traversal (see `denyNames`). -/
def entryAllowed (name : List Nat) : Bool :=
  !(name.headD 0 == 46 || name.headD 0 == 36) &&
    !(denyNames.contains (toLowerStr name))

/-! ## Per-root filesystem search (search.rs `search_files_and_folders`) -/

/-- Drive-root test of a search path: no parent, or a rendered string of at
most 3 bytes (source line 597). -/
def isDriveRoot (rootPath : List (List Nat)) : Bool :=
  decide (rootPath.length ≤ 1) || decide (utf8Len (pathString rootPath) ≤ 3)

/-- Non-primary-volume test: the lowercased path string does not start with
`c:` (source line 599). -/
def isNonCDrive (rootPath : List (List Nat)) : Bool :=
  !((s2l "c:").isPrefixOf (toLowerStr (pathString rootPath)))

/-- Traversal depth chosen per root (source lines 603-609). -/
def rootMaxDepth (rootPath : List (List Nat)) : Nat :=
  if isDriveRoot rootPath && isNonCDrive rootPath then 4
  else if isDriveRoot rootPath then 2
  else 3

/-- Hard ceiling on the number of walker entries processed per root
(source line 560). -/
def max_per_path : Nat := 300

/-- Processing of one walker entry inside the per-root loop (source lines
692-740): skip the root itself, skip very short names on drive roots, score,
classify by node kind, apply the non-primary-volume boost. -/
def entryResult (base : List Nat → List Nat → Int)
    (normalized_query query_lower : List Nat) (rootPath : List (List Nat))
    (e : List (List Nat) × FSNode) : Option SearchResult :=
  if e.1 = rootPath then none
  else if isDriveRoot rootPath && decide (utf8Len (display_name e.1) < 2) then
    none
  else
    match calculate_score base (display_name e.1) normalized_query query_lower with
    | none => none
    | some s =>
      some
        { name := display_name e.1
          path := e.1
          result_type := if fsIsDir e.2 then ResultType.Folder else ResultType.File
          score := s + (if isNonCDrive rootPath then 100 else 0)
          description := pathString e.1.dropLast }

/-- One root's task of `search_files_and_folders` (source lines 590-749):
skip missing roots, score the root itself as a folder candidate before the
walk, then walk with pruning, processing at most `max_per_path` entries.
Returns this root's folder and file accumulators. -/
def searchRoot (base : List Nat → List Nat → Int)
    (normalized_query query_lower : List Nat) (rootPath : List (List Nat))
    (tree : Option FSNode) : List SearchResult × List SearchResult :=
  match tree with
  | none => ([], [])
  | some n =>
    let rootCand : List SearchResult :=
      if fsIsDir n then
        match calculate_score base (display_name rootPath) normalized_query
            query_lower with
        | none => []
        | some s =>
          [{ name := display_name rootPath
             path := rootPath
             result_type := ResultType.Folder
             score := s + (if isNonCDrive rootPath then 100 else 0)
             description := pathString rootPath.dropLast }]
      else []
    let entries :=
      (walkNode entryAllowed (rootMaxDepth rootPath) rootPath n).take max_per_path
    let results := entries.filterMap (entryResult base normalized_query
      query_lower rootPath)
    (rootCand ++ results.filter (fun r => r.result_type = ResultType.Folder),
     results.filter (fun r => ¬ r.result_type = ResultType.Folder))

/-- Keep-first deduplication with an explicit seen-key list, modelling the
`HashSet::insert`-based `Vec::retain` calls; returns the kept elements and
the final seen list. -/
def dedupKeys {α : Type} (key : α → List Nat) :
    List (List Nat) → List α → List α × List (List Nat)
  | seen, [] => ([], seen)
  | seen, r :: rs =>
    if key r ∈ seen then dedupKeys key seen rs
    else
      let res := dedupKeys key (key r :: seen) rs
      (r :: res.1, res.2)

/-- search.rs `search_files_and_folders` (source lines 554-770): deduplicate
the root list by case-normalized path, run every root's task, merge, then
deduplicate folders and files with one shared seen set (folders first).
Cross-root merge order is scheduler-dependent in the source (one
`Mutex`-guarded extend per task); it is modelled as the root-list order. -/
def search_files_and_folders (base : List Nat → List Nat → Int)
    (fs : List (List Nat) → Option FSNode) (paths : List (List (List Nat)))
    (normalized_query query_lower : List Nat) :
    List SearchResult × List SearchResult :=
  let unique_paths := (dedupKeys pathKeyOf [] paths).1
  let merged := unique_paths.map
    (fun p => searchRoot base normalized_query query_lower p (fs p))
  let all_folders := merged.flatMap Prod.fst
  let all_files := merged.flatMap Prod.snd
  let d1 := dedupKeys pathKey [] all_folders
  let d2 := dedupKeys pathKey d1.2 all_files
  (d1.1, d2.1)

/-! ## Top-level search (search.rs `SearchEngine::search`) -/

/-- Application-catalog matches of a query (source lines 460-466): each
cached application is scored; matches keep the entry with the score filled
in. -/
def appMatches (base : List Nat → List Nat → Int) (eng : SearchEngine)
    (normalized_query query_lower : List Nat) : List SearchResult :=
  eng.applications.filterMap (fun a =>
    match calculate_score base a.name normalized_query query_lower with
    | some s => some { a with score := s }
    | none => none)

/-- The filesystem part of `search` (source lines 474-477): run only when the
raw query has at least 2 bytes. -/
def fsPairs (base : List Nat → List Nat → Int)
    (fs : List (List Nat) → Option FSNode) (eng : SearchEngine)
    (query : List Nat) : List SearchResult × List SearchResult :=
  if 2 ≤ utf8Len query then
    search_files_and_folders base fs (eng.search_paths ++ eng.extra_search_paths)
      (normalize_for_search query) (toLowerStr query)
  else ([], [])

/-- The folder dedup pass of `search` (source lines 479-485), with the fresh
shared seen set. -/
def foldersDedup (base : List Nat → List Nat → Int)
    (fs : List (List Nat) → Option FSNode) (eng : SearchEngine)
    (query : List Nat) : List SearchResult × List (List Nat) :=
  dedupKeys pathKey [] (fsPairs base fs eng query).1

/-- The file dedup pass of `search` (source lines 487-490), reusing the seen
set left by the folder pass. -/
def filesDedup (base : List Nat → List Nat → Int)
    (fs : List (List Nat) → Option FSNode) (eng : SearchEngine)
    (query : List Nat) : List SearchResult × List (List Nat) :=
  dedupKeys pathKey (foldersDedup base fs eng query).2 (fsPairs base fs eng query).2

/-- search.rs `SearchEngine::search` (source lines 450-502).  `srt` abstracts
`sort_unstable_by(|a, b| b.score.cmp(&a.score))`; theorems constrain it to
the contract `SortOk`. -/
def search (base : List Nat → List Nat → Int)
    (srt : List SearchResult → List SearchResult)
    (fs : List (List Nat) → Option FSNode) (eng : SearchEngine)
    (query : List Nat) : GroupedResults :=
  if query = [] then ⟨[], [], []⟩
  else
    { applications :=
        (srt (appMatches base eng (normalize_for_search query)
          (toLowerStr query))).take 5
      folders := (srt (foldersDedup base fs eng query).1).take 4
      files := (srt (filesDedup base fs eng query).1).take 5 }

/-- Descending-by-score ordering used by all three category sorts. -/
def scoreGE (a b : SearchResult) : Prop := b.score ≤ a.score

instance : DecidableRel scoreGE := fun a b => Int.decLe b.score a.score

instance : IsTotal SearchResult scoreGE :=
  ⟨fun a b => le_total b.score a.score⟩

instance : IsTrans SearchResult scoreGE :=
  ⟨fun _ _ _ hab hbc => le_trans hbc hab⟩

/-- Contract of Rust `sort_unstable_by` with the descending-score comparator:
the output is sorted descending by score and is a permutation of the input.
Tie order is deliberately unspecified (the source sort is unstable). -/
def SortOk (srt : List SearchResult → List SearchResult) : Prop :=
  ∀ l, List.Sorted scoreGE (srt l) ∧ List.Perm (srt l) l

/-- A concrete sort satisfying `SortOk`, used by the witnesses. -/
def sortDesc (l : List SearchResult) : List SearchResult :=
  List.insertionSort scoreGE l

theorem sortDesc_ok : SortOk sortDesc := fun l =>
  ⟨List.sorted_insertionSort scoreGE l, List.perm_insertionSort scoreGE l⟩

theorem toLowerCP_toUpperCP (c : Nat) : toLowerCP (toUpperCP c) = toLowerCP c := by
  unfold toLowerCP toUpperCP
  split_ifs <;> omega

theorem toLowerStr_toUpperStr (s : List Nat) :
    toLowerStr (toUpperStr s) = toLowerStr s := by
  induction s with
  | nil => rfl
  | cons c cs ih =>
    simp only [toLowerStr, toUpperStr, List.map_cons] at *
    rw [toLowerCP_toUpperCP]
    exact congrArg _ ih

theorem normalize_toUpperStr (s : List Nat) :
    normalize_for_search (toUpperStr s) = normalize_for_search s := by
  unfold normalize_for_search
  rw [toLowerStr_toUpperStr]

/-! ## Application index (search.rs `index_applications`, `index_directory`,
`refresh`, `should_skip_app`) -/

/-- Rust `str::contains` on code-point lists: contiguous substring test. -/
def strContains (hay needle : List Nat) : Bool :=
  match hay with
  | [] => needle.isEmpty
  | _ :: cs => needle.isPrefixOf hay || strContains cs needle

/-- search.rs `should_skip_app`: noise predicate on application names. -/
def should_skip_app (name : List Nat) : Bool :=
  let lower := toLowerStr name
  strContains lower (s2l "uninstall") || strContains lower (s2l "remove") ||
    strContains lower (s2l "repair") || strContains lower (s2l "help") ||
    strContains lower (s2l "readme") || strContains lower (s2l "manual") ||
    strContains lower (s2l "documentation") ||
    strContains lower (s2l "license") || strContains lower (s2l "website") ||
    strContains lower (s2l "url") || lower == s2l "about"

/-- Entry acceptance of `index_directory` (source lines 413-442): for the
Application result type only shortcuts are kept, noise names are skipped,
and the description is the parent directory name. -/
def indexEntry (result_type : ResultType) (e : List (List Nat) × FSNode) :
    Option SearchResult :=
  if result_type = ResultType.Application ∧ ¬ is_shortcut e.1 then none
  else
    let name := display_name e.1
    if should_skip_app name then none
    else
      some
        { name := name
          path := e.1
          result_type := result_type
          score := 0
          description := e.1.dropLast.getLastD [] }

/-- search.rs `index_directory` (source lines 408-446): a missing directory
is skipped (`Ok(())`), otherwise a depth-5 unfiltered walk appends the
accepted entries.  The `Result` return mirrors the source signature; no code
path produces an error. -/
def index_directory (fs : List (List Nat) → Option FSNode)
    (path : List (List Nat)) (result_type : ResultType)
    (apps : List SearchResult) : Except (List Nat) (List SearchResult) :=
  match fs path with
  | none => Except.ok apps
  | some n =>
    Except.ok (apps ++
      (walkNode (fun _ => true) 5 path n).filterMap (indexEntry result_type))

/-- search.rs `index_applications` (source lines 379-405): clears the
catalog, indexes the per-user Start Menu directory (when the platform
reports one) and the system-wide one (when it exists). -/
def index_applications (fs : List (List Nat) → Option FSNode)
    (userStart : Option (List (List Nat))) (sysStart : List (List Nat)) :
    Except (List Nat) (List SearchResult) :=
  match (match userStart with
         | some p => index_directory fs p ResultType.Application []
         | none => Except.ok []) with
  | Except.error e => Except.error e
  | Except.ok apps =>
    match (if (fs sysStart).isSome then
            index_directory fs sysStart ResultType.Application apps
           else Except.ok apps) with
    | Except.error e => Except.error e
    | Except.ok apps2 => Except.ok apps2

/-- search.rs `SearchEngine::refresh` (source lines 773-775): re-invokes
`index_applications`. -/
def refresh (fs : List (List Nat) → Option FSNode)
    (userStart : Option (List (List Nat))) (sysStart : List (List Nat)) :
    Except (List Nat) (List SearchResult) :=
  index_applications fs userStart sysStart

/-! ## Deduplication lemmas -/

theorem dedupKeys_sublist {α : Type} (key : α → List Nat)
    (seen : List (List Nat)) (l : List α) :
    (dedupKeys key seen l).1.Sublist l := by
  induction l generalizing seen with
  | nil => simp [dedupKeys]
  | cons r rs ih =>
    by_cases h : key r ∈ seen
    · simp only [dedupKeys, if_pos h]
      exact (ih seen).cons r
    · simp only [dedupKeys, if_neg h]
      exact (ih (key r :: seen)).cons₂ r

theorem key_not_seen_of_mem_dedupKeys {α : Type} (key : α → List Nat)
    (seen : List (List Nat)) (l : List α) :
    ∀ x ∈ (dedupKeys key seen l).1, key x ∉ seen := by
  induction l generalizing seen with
  | nil => simp [dedupKeys]
  | cons r rs ih =>
    by_cases h : key r ∈ seen
    · simpa only [dedupKeys, if_pos h] using ih seen
    · simp only [dedupKeys, if_neg h, List.mem_cons]
      rintro x (rfl | hx)
      · exact h
      · exact fun hs => ih _ x hx (List.mem_cons_of_mem _ hs)

theorem dedupKeys_pairwise {α : Type} (key : α → List Nat)
    (seen : List (List Nat)) (l : List α) :
    (dedupKeys key seen l).1.Pairwise (fun a b => key a ≠ key b) := by
  induction l generalizing seen with
  | nil => simp [dedupKeys]
  | cons r rs ih =>
    by_cases h : key r ∈ seen
    · simpa only [dedupKeys, if_pos h] using ih seen
    · simp only [dedupKeys, if_neg h, List.pairwise_cons]
      refine ⟨fun b hb hkb => ?_, ih (key r :: seen)⟩
      exact key_not_seen_of_mem_dedupKeys key _ rs b hb (hkb ▸ List.mem_cons_self _ _)

theorem mem_dedupKeys_snd {α : Type} (key : α → List Nat)
    (seen : List (List Nat)) (l : List α) (k : List Nat) :
    k ∈ (dedupKeys key seen l).2 ↔
      k ∈ seen ∨ k ∈ (dedupKeys key seen l).1.map key := by
  induction l generalizing seen with
  | nil => simp [dedupKeys]
  | cons r rs ih =>
    by_cases h : key r ∈ seen
    · simpa only [dedupKeys, if_pos h] using ih seen
    · simp only [dedupKeys, if_neg h, List.map_cons, List.mem_cons]
      rw [ih (key r :: seen)]
      simp only [List.mem_cons]
      tauto

theorem dedupKeys_filter_key {α : Type} (key : α → List Nat)
    (seen : List (List Nat)) (l : List α) (k : List Nat) (hk : k ∉ seen) :
    (dedupKeys key seen l).1.filter (fun r => key r == k) =
      (l.filter (fun r => key r == k)).take 1 := by
  induction l generalizing seen with
  | nil => simp [dedupKeys]
  | cons r rs ih =>
    by_cases h : key r ∈ seen
    · have hne : ¬ (key r == k) = true := by
        simp only [beq_iff_eq]
        rintro rfl; exact hk h
      simp only [dedupKeys, if_pos h, List.filter_cons, if_neg hne]
      exact ih seen hk
    · by_cases hrk : key r = k
      · have hb : (key r == k) = true := by simpa [beq_iff_eq] using hrk
        simp only [dedupKeys, if_neg h, List.filter_cons, hb, if_pos]
        have hrest : ((dedupKeys key (key r :: seen) rs).1.filter
            (fun x => key x == k)) = [] := by
          rw [List.filter_eq_nil_iff]
          intro a ha
          have := key_not_seen_of_mem_dedupKeys key (key r :: seen) rs a ha
          simp only [beq_iff_eq]
          intro hak
          exact this (by rw [hak, ← hrk]; exact List.mem_cons_self _ _)
        rw [hrest]
        simp
      · have hne : ¬ (key r == k) = true := by simpa [beq_iff_eq] using hrk
        simp only [dedupKeys, if_neg h, List.filter_cons, if_neg hne]
        exact ih (key r :: seen) (by
          simp only [List.mem_cons]
          rintro (rfl | hs)
          · exact hrk rfl
          · exact hk hs)

/-! ## Walker lemma: every yielded entry lies under the root and every
component added below the root passed the entry filter. -/

theorem walkNode_entries (pred : List Nat → Bool) (d : Nat) :
    ∀ (p : List (List Nat)) (n : FSNode),
      ∀ e ∈ walkNode pred d p n,
        ∃ rel, e.1 = p ++ rel ∧ ∀ c ∈ rel, pred c = true := by
  induction d with
  | zero =>
    intro p n e he
    by_cases h : pred (fsName n) = true
    · simp only [walkNode, h, if_true, List.mem_singleton] at he
      exact ⟨[], by simp [he], by simp⟩
    · simp [walkNode, h] at he
  | succ d2 ih =>
    intro p n e he
    by_cases h : pred (fsName n) = true
    · simp only [walkNode, h, if_true, List.mem_cons] at he
      rcases he with rfl | he
      · exact ⟨[], by simp, by simp⟩
      · by_cases hd : fsIsDir n = true
        · simp only [hd, if_true, List.mem_flatMap] at he
          obtain ⟨c, hc, hec⟩ := he
          obtain ⟨rel, herel, hrel⟩ := ih (p ++ [fsName c]) c e hec
          refine ⟨fsName c :: rel, by simp [herel], ?_⟩
          · intro x hx
            rcases List.mem_cons.mp hx with rfl | hx2
            · by_contra hpc
              have : walkNode pred d2 (p ++ [fsName c]) c = [] := by
                rw [walkNode.eq_def]
                simp only [if_neg hpc]
              rw [this] at hec
              exact (List.not_mem_nil e) hec
            · exact hrel x hx2
        · simp [hd] at he
    · simp [walkNode, h] at he

/-! ## Generic helper lemmas -/

theorem sortOk_nil {srt : List SearchResult → List SearchResult}
    (h : SortOk srt) : srt [] = [] := (h []).2.eq_nil

theorem sorted_take_sortOk {srt : List SearchResult → List SearchResult}
    (h : SortOk srt) (l : List SearchResult) (n : Nat) :
    List.Sorted scoreGE ((srt l).take n) :=
  List.Pairwise.sublist (List.take_sublist n (srt l)) (h l).1

theorem pairwise_key_take_sortOk {srt : List SearchResult → List SearchResult}
    (h : SortOk srt) (l : List SearchResult)
    (hp : l.Pairwise (fun a b => pathKey a ≠ pathKey b)) (n : Nat) :
    ((srt l).take n).Pairwise (fun a b => pathKey a ≠ pathKey b) := by
  refine List.Pairwise.sublist (List.take_sublist n (srt l)) ?_
  exact (List.Perm.pairwise_iff (fun hxy => hxy.symm) (h l).2).mpr hp

theorem mem_of_mem_take_sortOk {srt : List SearchResult → List SearchResult}
    (h : SortOk srt) (l : List SearchResult) (n : Nat) (x : SearchResult)
    (hx : x ∈ (srt l).take n) : x ∈ l :=
  ((h l).2.mem_iff).mp ((List.take_sublist n (srt l)).subset hx)

theorem length_filter_partition {α : Type} (p : α → Bool) (l : List α) :
    (l.filter p).length + (l.filter (fun a => !(p a))).length = l.length := by
  induction l with
  | nil => rfl
  | cons a as ih =>
    cases h : p a <;> simp [List.filter_cons, h] <;> omega

theorem pairwise_key_filterMap {f : SearchResult → Option SearchResult}
    (hf : ∀ x y, f x = some y → pathKey y = pathKey x) (l : List SearchResult)
    (h : l.Pairwise (fun a b => pathKey a ≠ pathKey b)) :
    (l.filterMap f).Pairwise (fun a b => pathKey a ≠ pathKey b) := by
  induction l with
  | nil => simp
  | cons a as ih =>
    rcases List.pairwise_cons.mp h with ⟨ha, has⟩
    cases hfa : f a with
    | none => simpa [List.filterMap_cons, hfa] using ih has
    | some b =>
      simp only [List.filterMap_cons, hfa, List.pairwise_cons]
      refine ⟨fun y hy => ?_, ih has⟩
      obtain ⟨x, hx, hfx⟩ := List.mem_filterMap.mp hy
      rw [hf a b hfa, hf x y hfx]
      exact ha x hx

/-! ## Claim C1 -/

/-- C1: whenever the base fuzzy subsequence match of the search-normalized
strings succeeds, `calculate_score` returns the base fuzzy score plus the
additive bonuses computed on the raw lowercase strings (+1000 exact, +500
prefix, +200 word-start, +(20 − len)·5 for names shorter than 20 bytes, −50
for names longer than 50 bytes); when the normalized query is not an ordered
subsequence of the normalized name, no score is produced. -/
theorem calculate_score_formula (base : List Nat → List Nat → Int)
    (name query : List Nat) :
    calculate_score base name (normalize_for_search query) (toLowerStr query) =
      (if subseq (normalize_for_search query) (normalize_for_search name) then
        some (base (normalize_for_search name) (normalize_for_search query)
          + (if toLowerStr name = toLowerStr query then 1000 else 0)
          + (if (toLowerStr query).isPrefixOf (toLowerStr name) then 500 else 0)
          + (if (splitWs (toLowerStr name)).any
              (fun w => (toLowerStr query).isPrefixOf w) then 200 else 0)
          + (if utf8Len name < 20 then (20 - (utf8Len name : Int)) * 5 else 0)
          - (if 50 < utf8Len name then 50 else 0))
      else none) := by
  simp only [calculate_score, fuzzy_match]
  by_cases h : subseq (normalize_for_search query) (normalize_for_search name) = true
  · simp only [h, if_true]
    split_ifs <;> ring_nf
  · rw [Bool.not_eq_true] at h
    simp [h]

/-! ## Claim C4 -/

/-- C4: scoring as invoked by `search` is case-insensitive —
`score name query = score name (toUpper query)` — and accented and
unaccented variants of the same string have identical search-normalized
forms (witnessed on the covered alphabet by Cafe with and without the
acute accent). -/
theorem score_case_diacritic_insensitive (base : List Nat → List Nat → Int) :
    (∀ name query, score base name query = score base name (toUpperStr query)) ∧
      normalize_for_search (s2l "Café") = normalize_for_search (s2l "Cafe") := by
  constructor
  · intro name query
    unfold score
    rw [normalize_toUpperStr, toLowerStr_toUpperStr]
  · decide

/-! ## Claim C5 -/

/-- C5: for every engine state (and any base scorer, sort and filesystem),
searching the empty query returns the empty `GroupedResults` without
touching the catalog or the filesystem. -/
theorem search_empty_query (base : List Nat → List Nat → Int)
    (srt : List SearchResult → List SearchResult)
    (fs : List (List Nat) → Option FSNode) (eng : SearchEngine) :
    search base srt fs eng [] = ⟨[], [], []⟩ := rfl

/-! ## Claim C6 -/

/-- C6: a non-empty query of fewer than 2 bytes yields empty folder and file
lists, and the whole result is independent of the filesystem (only the
in-memory application catalog is consulted). -/
theorem short_query_skips_filesystem (base : List Nat → List Nat → Int)
    (srt : List SearchResult → List SearchResult)
    (fs : List (List Nat) → Option FSNode) (eng : SearchEngine)
    (query : List Nat) (hne : query ≠ []) (hshort : utf8Len query < 2)
    (hsrt : SortOk srt) :
    (search base srt fs eng query).folders = [] ∧
      (search base srt fs eng query).files = [] ∧
      ∀ fs2, search base srt fs eng query = search base srt fs2 eng query := by
  have hfs : ∀ fs0, fsPairs base fs0 eng query = ([], []) := by
    intro fs0
    unfold fsPairs
    rw [if_neg (by omega)]
  have hfold : ∀ fs0, foldersDedup base fs0 eng query = ([], []) := by
    intro fs0
    unfold foldersDedup
    rw [hfs]
    rfl
  have hfile : ∀ fs0, filesDedup base fs0 eng query = ([], []) := by
    intro fs0
    unfold filesDedup
    rw [hfs, hfold]
    rfl
  refine ⟨?_, ?_, ?_⟩
  · simp [search, if_neg hne, hfold, sortOk_nil hsrt]
  · simp [search, if_neg hne, hfile, sortOk_nil hsrt]
  · intro fs2
    simp [search, if_neg hne, hfold, hfile]

/-! ## Claim C2 -/

/-- C2: every category list returned by `search` is sorted in non-increasing
order of score, and respects its per-category cap: at most 5 applications,
at most 4 folders, at most 5 files.  This holds for every sort function
satisfying the `sort_unstable_by` contract (tie order among equal scores is
deliberately left unspecified, as in the source). -/
theorem search_sorted_and_capped (base : List Nat → List Nat → Int)
    (srt : List SearchResult → List SearchResult)
    (fs : List (List Nat) → Option FSNode) (eng : SearchEngine)
    (query : List Nat) (hsrt : SortOk srt) :
    List.Sorted scoreGE (search base srt fs eng query).applications ∧
      (search base srt fs eng query).applications.length ≤ 5 ∧
      List.Sorted scoreGE (search base srt fs eng query).folders ∧
      (search base srt fs eng query).folders.length ≤ 4 ∧
      List.Sorted scoreGE (search base srt fs eng query).files ∧
      (search base srt fs eng query).files.length ≤ 5 := by
  by_cases hq : query = []
  · subst hq
    refine ⟨by simp [search], by simp [search], by simp [search],
      by simp [search], by simp [search], by simp [search]⟩
  · simp only [search, if_neg hq]
    refine ⟨sorted_take_sortOk hsrt _ _, ?_, sorted_take_sortOk hsrt _ _, ?_,
      sorted_take_sortOk hsrt _ _, ?_⟩ <;> simp [List.length_take]

/-! ## Claim C3 -/

/-- C3: no two folders and no two files in a result set share a
case-normalized path (and no two applications either, given that the cached
catalog — built from walks of disjoint directory trees — contains no
duplicate case-normalized path); the deduplication steps keep, for each
case-normalized path, exactly the first occurrence in merge order, and run
on the merged lists before the per-category sort and truncation. -/
theorem search_dedup_keeps_first (base : List Nat → List Nat → Int)
    (srt : List SearchResult → List SearchResult)
    (fs : List (List Nat) → Option FSNode) (eng : SearchEngine)
    (query : List Nat) (hsrt : SortOk srt)
    (happ : eng.applications.Pairwise (fun a b => pathKey a ≠ pathKey b)) :
    ((search base srt fs eng query).applications.Pairwise
        (fun a b => pathKey a ≠ pathKey b) ∧
      (search base srt fs eng query).folders.Pairwise
        (fun a b => pathKey a ≠ pathKey b) ∧
      (search base srt fs eng query).files.Pairwise
        (fun a b => pathKey a ≠ pathKey b)) ∧
    (∀ (seen : List (List Nat)) (l : List SearchResult) (k : List Nat),
      k ∉ seen →
        (dedupKeys pathKey seen l).1.filter (fun r => pathKey r == k) =
          (l.filter (fun r => pathKey r == k)).take 1) ∧
    (∀ (seen : List (List Nat)) (l : List SearchResult),
      (dedupKeys pathKey seen l).1.Sublist l) := by
  refine ⟨?_, fun seen l k hk => dedupKeys_filter_key pathKey seen l k hk,
    fun seen l => dedupKeys_sublist pathKey seen l⟩
  by_cases hq : query = []
  · subst hq
    exact ⟨by simp [search], by simp [search], by simp [search]⟩
  · simp only [search, if_neg hq]
    refine ⟨?_, ?_, ?_⟩
    · refine pairwise_key_take_sortOk hsrt _ ?_ 5
      unfold appMatches
      refine pairwise_key_filterMap ?_ _ happ
      intro x y hxy
      cases hc : calculate_score base x.name (normalize_for_search query)
          (toLowerStr query) with
      | none => simp [hc] at hxy
      | some s =>
        simp only [hc] at hxy
        cases hxy
        rfl
    · exact pairwise_key_take_sortOk hsrt _ (dedupKeys_pairwise pathKey _ _) 4
    · exact pairwise_key_take_sortOk hsrt _ (dedupKeys_pairwise pathKey _ _) 5

/-! ## Claim C10 -/

/-- Base fuzzy scorer used by the concrete examples: constant zero (the
abstract base score only shifts totals uniformly). -/
def baseZero : List Nat → List Nat → Int := fun _ _ => 0

/-- Concrete engine for the C10 coexistence example: one cached application
whose path collides, up to letter case, with a file discovered on disk. -/
def engShare : SearchEngine :=
  { applications :=
      [{ name := s2l "notes"
         path := [s2l "d:", s2l "stuff", s2l "notes"]
         result_type := ResultType.Application
         score := 0
         description := s2l "stuff" }]
    search_paths := [[s2l "d:", s2l "stuff"]]
    extra_search_paths := [] }

/-- Concrete filesystem for the C10 coexistence example. -/
def fsShare : List (List Nat) → Option FSNode := fun p =>
  if p = [s2l "d:", s2l "stuff"] then
    some (FSNode.dir (s2l "stuff") [FSNode.file (s2l "Notes")])
  else none

/-- C10: deduplication in `search` shares one seen-path set across the
folder and file categories, folders first — every returned file's
case-normalized path differs from that of every folder retained by the
folder dedup pass; the applications list never consults this set: it is
independent of the filesystem, and a concrete run returns an application
and a file sharing the same case-normalized path. -/
theorem search_cross_category_dedup (base : List Nat → List Nat → Int)
    (srt : List SearchResult → List SearchResult)
    (fs fs2 : List (List Nat) → Option FSNode) (eng : SearchEngine)
    (query : List Nat) (hsrt : SortOk srt) :
    (∀ f ∈ (search base srt fs eng query).files,
      ∀ d ∈ (foldersDedup base fs eng query).1, pathKey f ≠ pathKey d) ∧
    (search base srt fs eng query).applications =
      (search base srt fs2 eng query).applications ∧
    (∃ a ∈ (search baseZero sortDesc fsShare engShare (s2l "notes")).applications,
      ∃ f ∈ (search baseZero sortDesc fsShare engShare (s2l "notes")).files,
        pathKey a = pathKey f) := by
  refine ⟨?_, ?_, by decide⟩
  · intro f hf d hd
    by_cases hq : query = []
    · subst hq
      simp [search] at hf
    · simp only [search, if_neg hq] at hf
      have hf2 : f ∈ (filesDedup base fs eng query).1 :=
        mem_of_mem_take_sortOk hsrt _ 5 f hf
      have hnot : pathKey f ∉ (foldersDedup base fs eng query).2 :=
        key_not_seen_of_mem_dedupKeys pathKey _ _ f hf2
      intro heq
      apply hnot
      rw [heq]
      exact (mem_dedupKeys_snd pathKey [] _ _).mpr
        (Or.inr (List.mem_map_of_mem pathKey hd))
  · by_cases hq : query = []
    · subst hq
      rfl
    · simp [search, if_neg hq]

/-! ## Claims C7 and C8: per-root traversal -/

theorem entryResult_path (base : List Nat → List Nat → Int)
    (nq ql : List Nat) (rootPath : List (List Nat))
    (e : List (List Nat) × FSNode) (r : SearchResult)
    (h : entryResult base nq ql rootPath e = some r) :
    r.path = e.1 ∧ e.1 ≠ rootPath := by
  by_cases h1 : e.1 = rootPath
  · simp [entryResult, h1] at h
  · refine ⟨?_, h1⟩
    by_cases h2 : (isDriveRoot rootPath &&
        decide (utf8Len (display_name e.1) < 2)) = true
    · simp [entryResult, h1, h2] at h
    · cases hc : calculate_score base (display_name e.1) nq ql with
      | none => simp [entryResult, h1, h2, hc] at h
      | some s =>
        simp only [entryResult, if_neg h1, h2, if_false, hc,
          Bool.false_eq_true] at h
        cases h
        rfl

theorem searchRoot_result_path (base : List Nat → List Nat → Int)
    (nq ql : List Nat) (rootPath : List (List Nat)) (n : FSNode) :
    ∀ r ∈ (searchRoot base nq ql rootPath (some n)).1 ++
        (searchRoot base nq ql rootPath (some n)).2,
      r.path = rootPath ∨
        (∃ e ∈ (walkNode entryAllowed (rootMaxDepth rootPath) rootPath
            n).take max_per_path,
          r.path = e.1 ∧ e.1 ≠ rootPath) := by
  intro r hr
  have hcases : r.path = rootPath ∨
      ∃ e ∈ (walkNode entryAllowed (rootMaxDepth rootPath) rootPath
          n).take max_per_path,
        entryResult base nq ql rootPath e = some r := by
    simp only [searchRoot, List.mem_append] at hr
    rcases hr with (hr | hr) | hr
    · left
      revert hr
      cases hc : calculate_score base (display_name rootPath) nq ql <;>
        cases hd : fsIsDir n <;> intro hr <;>
        simp only [hc, hd, if_true, if_false, Bool.false_eq_true,
          List.mem_singleton] at hr <;>
        first
          | exact absurd hr (List.not_mem_nil r)
          | (subst hr; rfl)
    · right
      obtain ⟨e, he, hre⟩ := List.mem_filterMap.mp (List.mem_of_mem_filter hr)
      exact ⟨e, he, hre⟩
    · right
      obtain ⟨e, he, hre⟩ := List.mem_filterMap.mp (List.mem_of_mem_filter hr)
      exact ⟨e, he, hre⟩
  rcases hcases with h | ⟨e, he, hre⟩
  · exact Or.inl h
  · exact Or.inr ⟨e, he, entryResult_path base nq ql rootPath e r hre⟩

/-- Amended C7: every result contributed by a root's task either is the root
itself (scored before the walk, without a denylist check) or lies strictly
below the root with every path component added below the root passing the
traversal filter `entryAllowed` (not dot- or dollar-prefixed, not in the
denylist); subtrees whose directory name fails the filter are pruned before
descent, so no descendant of a denylisted directory below the root is ever
produced.  The path of the root itself is not checked. -/
theorem searchRoot_pruned_below_root (base : List Nat → List Nat → Int)
    (nq ql : List Nat) (rootPath : List (List Nat)) (tree : Option FSNode) :
    ∀ r ∈ (searchRoot base nq ql rootPath tree).1 ++
        (searchRoot base nq ql rootPath tree).2,
      r.path = rootPath ∨
        ∃ rel, rel ≠ [] ∧ r.path = rootPath ++ rel ∧
          ∀ c ∈ rel, entryAllowed c = true := by
  intro r hr
  cases tree with
  | none => simp [searchRoot] at hr
  | some n =>
    rcases searchRoot_result_path base nq ql rootPath n r hr with h | ⟨e, he, hpe, hne⟩
    · exact Or.inl h
    · right
      have hew : e ∈ walkNode entryAllowed (rootMaxDepth rootPath) rootPath n :=
        (List.take_sublist _ _).subset he
      obtain ⟨rel, herel, hrel⟩ :=
        walkNode_entries entryAllowed (rootMaxDepth rootPath) rootPath n e hew
      refine ⟨rel, ?_, by rw [hpe, herel], hrel⟩
      intro hnil
      apply hne
      rw [herel, hnil, List.append_nil]

/-- Concrete filesystem for the C7 counterexample: the configured search
root lives inside a `node_modules` directory. -/
def fsUnderDeny : List (List Nat) → Option FSNode := fun p =>
  if p = [s2l "d:", s2l "node_modules", s2l "sub"] then
    some (FSNode.dir (s2l "sub") [FSNode.file (s2l "notes.txt")])
  else none

/-- Concrete engine for the C7 counterexample. -/
def engUnderDeny : SearchEngine :=
  { applications := []
    search_paths := [[s2l "d:", s2l "node_modules", s2l "sub"]]
    extra_search_paths := [] }

/-- C7 counterexample: a search root whose own path passes through a
`node_modules` directory yields a result whose path contains that
denylisted component, so the claim as stated (no returned path ever passes
through a denylisted directory) is false: the traversal filter only guards
components encountered below each root. -/
theorem search_result_through_denylisted_dir :
    ∃ r ∈ (search baseZero sortDesc fsUnderDeny engUnderDeny
        (s2l "notes")).files,
      s2l "node_modules" ∈ r.path := by decide

/-- C8: each root's task draws its contribution from at most `max_per_path`
(300) walker entries plus the root directory itself: the combined folder
and file output has at most 301 elements, and every output path is either
the root's own path (scored as a folder candidate before the walk) or the
path of one of the first 300 entries yielded by the pruned walk. -/
theorem searchRoot_bounded_by_cap (base : List Nat → List Nat → Int)
    (nq ql : List Nat) (rootPath : List (List Nat)) (n : FSNode) :
    ((searchRoot base nq ql rootPath (some n)).1.length +
        (searchRoot base nq ql rootPath (some n)).2.length ≤
      max_per_path + 1) ∧
    ∀ r ∈ (searchRoot base nq ql rootPath (some n)).1 ++
        (searchRoot base nq ql rootPath (some n)).2,
      r.path = rootPath ∨
        r.path ∈ ((walkNode entryAllowed (rootMaxDepth rootPath) rootPath
          n).take max_per_path).map Prod.fst := by
  constructor
  · simp only [searchRoot, List.length_append]
    have hcand :
        (if fsIsDir n then
          match calculate_score base (display_name rootPath) nq ql with
          | none => []
          | some s =>
            [{ name := display_name rootPath
               path := rootPath
               result_type := ResultType.Folder
               score := s + (if isNonCDrive rootPath then 100 else 0)
               description := pathString rootPath.dropLast }]
          else ([] : List SearchResult)).length ≤ 1 := by
      cases hc : calculate_score base (display_name rootPath) nq ql <;>
        cases hd : fsIsDir n <;> simp [hc, hd]
    set results :=
      ((walkNode entryAllowed (rootMaxDepth rootPath) rootPath
        n).take max_per_path).filterMap (entryResult base nq ql rootPath)
      with hresults
    have hpart :
        (results.filter (fun r => r.result_type = ResultType.Folder)).length +
          (results.filter
            (fun r => ¬ r.result_type = ResultType.Folder)).length =
        results.length := by
      have := length_filter_partition
        (fun r => decide (r.result_type = ResultType.Folder)) results
      simpa using this
    have hres : results.length ≤ max_per_path := by
      calc results.length ≤ ((walkNode entryAllowed (rootMaxDepth rootPath)
            rootPath n).take max_per_path).length :=
          List.length_filterMap_le _ _
      _ ≤ max_per_path := by simp [List.length_take]
    omega
  · intro r hr
    rcases searchRoot_result_path base nq ql rootPath n r hr with h | ⟨e, he, hpe, _⟩
    · exact Or.inl h
    · exact Or.inr (hpe ▸ List.mem_map_of_mem Prod.fst he)

/-! ## Claim C9 -/

theorem index_directory_ok (fs : List (List Nat) → Option FSNode)
    (path : List (List Nat)) (rt : ResultType) (apps : List SearchResult) :
    ∃ l, index_directory fs path rt apps = Except.ok l := by
  unfold index_directory
  cases fs path <;> exact ⟨_, rfl⟩

/-- C9: `refresh` rebuilds the application catalog and never fails — in
particular it returns an error only in the (empty) set of runs where no
progress was possible; a configured directory that does not exist (here the
per-user Start Menu path `p`) is skipped without affecting the rest of the
rebuild, which proceeds exactly as if that directory were absent from the
configuration. -/
theorem index_applications_ok (fs : List (List Nat) → Option FSNode)
    (us : Option (List (List Nat))) (ss : List (List Nat)) :
    ∃ l, index_applications fs us ss = Except.ok l := by
  have hstep : ∀ (apps : List SearchResult),
      ∃ l, (match (if (fs ss).isSome then
              index_directory fs ss ResultType.Application apps
            else Except.ok apps) with
        | Except.error e => Except.error e
        | Except.ok apps2 => (Except.ok apps2 :
            Except (List Nat) (List SearchResult))) = Except.ok l := by
    intro apps
    cases hss : fs ss with
    | none => exact ⟨apps, by simp [index_directory, hss]⟩
    | some n =>
      exact ⟨apps ++ (walkNode (fun _ => true) 5 ss n).filterMap
        (indexEntry ResultType.Application), by simp [index_directory, hss]⟩
  cases us with
  | none =>
    obtain ⟨l, hl⟩ := hstep []
    exact ⟨l, by simpa [index_applications] using hl⟩
  | some q =>
    cases hq : fs q with
    | none =>
      obtain ⟨l, hl⟩ := hstep []
      exact ⟨l, by simpa [index_applications, index_directory, hq] using hl⟩
    | some m =>
      obtain ⟨l, hl⟩ := hstep
        ([] ++ (walkNode (fun _ => true) 5 q m).filterMap
          (indexEntry ResultType.Application))
      exact ⟨l, by simpa [index_applications, index_directory, hq] using hl⟩

/-- C9: `refresh` rebuilds the application catalog and never fails — in
particular it returns an error only in the (empty) set of runs where no
progress was possible; a configured directory that does not exist (here the
per-user Start Menu path `p`) is skipped without affecting the rest of the
rebuild, which proceeds exactly as if that directory were absent from the
configuration. -/
theorem refresh_best_effort (fs : List (List Nat) → Option FSNode)
    (p sysStart : List (List Nat)) (hp : fs p = none) :
    (∃ l, refresh fs (some p) sysStart = Except.ok l) ∧
      refresh fs (some p) sysStart = refresh fs none sysStart ∧
      ∀ (fs2 : List (List Nat) → Option FSNode) us2 ss2,
        ∃ l2, refresh fs2 us2 ss2 = Except.ok l2 := by
  refine ⟨index_applications_ok fs (some p) sysStart, ?_,
    fun fs2 us2 ss2 => index_applications_ok fs2 us2 ss2⟩
  simp [refresh, index_applications, index_directory, hp]

/-! ## Witnesses -/

/-- Filesystem with no accessible directory at all. -/
def fsNone : List (List Nat) → Option FSNode := fun _ => none

/-- Concrete search root for the per-root witnesses. -/
def rootStuff : List (List Nat) := [s2l "d:", s2l "stuff"]

/-- Concrete directory tree rooted at `rootStuff`. -/
def treeStuff : FSNode := FSNode.dir (s2l "stuff") [FSNode.file (s2l "Notes")]

/-- The file result produced from `treeStuff` for the query `notes`. -/
def rNotesFile : SearchResult :=
  { name := s2l "Notes"
    path := [s2l "d:", s2l "stuff", s2l "Notes"]
    result_type := ResultType.File
    score := 1875
    description := s2l "d:\\stuff" }

theorem search_sorted_and_capped_witness :
    SortOk sortDesc ∧
      (List.Sorted scoreGE
          (search baseZero sortDesc fsShare engShare (s2l "note")).applications ∧
        (search baseZero sortDesc fsShare engShare
          (s2l "note")).applications.length ≤ 5 ∧
        List.Sorted scoreGE
          (search baseZero sortDesc fsShare engShare (s2l "note")).folders ∧
        (search baseZero sortDesc fsShare engShare
          (s2l "note")).folders.length ≤ 4 ∧
        List.Sorted scoreGE
          (search baseZero sortDesc fsShare engShare (s2l "note")).files ∧
        (search baseZero sortDesc fsShare engShare
          (s2l "note")).files.length ≤ 5) :=
  ⟨sortDesc_ok,
    search_sorted_and_capped baseZero sortDesc fsShare engShare (s2l "note")
      sortDesc_ok⟩

theorem search_dedup_keeps_first_witness :
    (SortOk sortDesc ∧
      engShare.applications.Pairwise (fun a b => pathKey a ≠ pathKey b)) ∧
      (((search baseZero sortDesc fsShare engShare (s2l "notes")).applications.Pairwise
          (fun a b => pathKey a ≠ pathKey b) ∧
        (search baseZero sortDesc fsShare engShare (s2l "notes")).folders.Pairwise
          (fun a b => pathKey a ≠ pathKey b) ∧
        (search baseZero sortDesc fsShare engShare (s2l "notes")).files.Pairwise
          (fun a b => pathKey a ≠ pathKey b)) ∧
      (∀ (seen : List (List Nat)) (l : List SearchResult) (k : List Nat),
        k ∉ seen →
          (dedupKeys pathKey seen l).1.filter (fun r => pathKey r == k) =
            (l.filter (fun r => pathKey r == k)).take 1) ∧
      (∀ (seen : List (List Nat)) (l : List SearchResult),
        (dedupKeys pathKey seen l).1.Sublist l)) :=
  ⟨⟨sortDesc_ok, by decide⟩,
    search_dedup_keeps_first baseZero sortDesc fsShare engShare (s2l "notes")
      sortDesc_ok (by decide)⟩

theorem short_query_skips_filesystem_witness :
    (s2l "a" ≠ [] ∧ utf8Len (s2l "a") < 2 ∧ SortOk sortDesc) ∧
      ((search baseZero sortDesc fsShare engShare (s2l "a")).folders = [] ∧
        (search baseZero sortDesc fsShare engShare (s2l "a")).files = [] ∧
        ∀ fs2, search baseZero sortDesc fsShare engShare (s2l "a") =
          search baseZero sortDesc fs2 engShare (s2l "a")) :=
  ⟨⟨by decide, by decide, sortDesc_ok⟩,
    short_query_skips_filesystem baseZero sortDesc fsShare engShare (s2l "a")
      (by decide) (by decide) sortDesc_ok⟩

theorem searchRoot_pruned_below_root_witness :
    rNotesFile ∈ (searchRoot baseZero (s2l "notes") (s2l "notes") rootStuff
        (some treeStuff)).1 ++
      (searchRoot baseZero (s2l "notes") (s2l "notes") rootStuff
        (some treeStuff)).2 ∧
    (rNotesFile.path = rootStuff ∨
      ∃ rel, rel ≠ [] ∧ rNotesFile.path = rootStuff ++ rel ∧
        ∀ c ∈ rel, entryAllowed c = true) :=
  ⟨by decide,
    searchRoot_pruned_below_root baseZero (s2l "notes") (s2l "notes") rootStuff
      (some treeStuff) rNotesFile (by decide)⟩

theorem searchRoot_bounded_by_cap_witness :
    ((searchRoot baseZero (s2l "notes") (s2l "notes") rootStuff
          (some treeStuff)).1.length +
        (searchRoot baseZero (s2l "notes") (s2l "notes") rootStuff
          (some treeStuff)).2.length ≤ max_per_path + 1) ∧
      (rNotesFile.path = rootStuff ∨
        rNotesFile.path ∈ ((walkNode entryAllowed (rootMaxDepth rootStuff)
          rootStuff treeStuff).take max_per_path).map Prod.fst) :=
  ⟨(searchRoot_bounded_by_cap baseZero (s2l "notes") (s2l "notes") rootStuff
      treeStuff).1,
    (searchRoot_bounded_by_cap baseZero (s2l "notes") (s2l "notes") rootStuff
      treeStuff).2 rNotesFile (by decide)⟩

theorem refresh_best_effort_witness :
    fsNone [s2l "x"] = none ∧
      ((∃ l, refresh fsNone (some [s2l "x"]) [s2l "y"] = Except.ok l) ∧
        refresh fsNone (some [s2l "x"]) [s2l "y"] =
          refresh fsNone none [s2l "y"] ∧
        ∀ (fs2 : List (List Nat) → Option FSNode) us2 ss2,
          ∃ l2, refresh fs2 us2 ss2 = Except.ok l2) :=
  ⟨rfl, refresh_best_effort fsNone [s2l "x"] [s2l "y"] rfl⟩

theorem search_cross_category_dedup_witness :
    SortOk sortDesc ∧
      ((∀ f ∈ (search baseZero sortDesc fsShare engShare (s2l "notes")).files,
        ∀ d ∈ (foldersDedup baseZero fsShare engShare (s2l "notes")).1,
          pathKey f ≠ pathKey d) ∧
      (search baseZero sortDesc fsShare engShare (s2l "notes")).applications =
        (search baseZero sortDesc fsNone engShare (s2l "notes")).applications ∧
      (∃ a ∈ (search baseZero sortDesc fsShare engShare
          (s2l "notes")).applications,
        ∃ f ∈ (search baseZero sortDesc fsShare engShare (s2l "notes")).files,
          pathKey a = pathKey f)) :=
  ⟨sortDesc_ok,
    search_cross_category_dedup baseZero sortDesc fsShare fsNone engShare
      (s2l "notes") sortDesc_ok⟩

end Rustle
